import Mathlib

/-!
Verification development for the `NestedDict` hierarchical container of
`src/extended_containers/nested_dict.py` (with the divergent `__contains__`
variant of `tests/nested_dict/test_nested_dict.py`).

A `NestedDict` is simultaneously a tree of children (branch nodes or leaf
values) and, on every node, a flat index (`__chainmap__`) from relative
dot-separated key strings to leaf values.  Every public operation recurses on
the composite key one `partition(".")` step at a time.

Modelling conventions:
* Python strings are lists of characters (`Str`).
* A composite key is embedded in pre-parsed form (`Key`): `Key.cons s r`
  stands for the string whose `partition(".")` yields head segment `s` and
  non-empty remainder `r.toStr`; `Key.last s` stands for a string whose
  partition yields remainder `""`.  `partitionDot_toStr` below proves that on
  well-formed composite keys (non-empty segments, no dot inside a segment -
  the spec's definition of a composite key) this parse agrees with the
  source's `key.partition(".")` at every recursion level.
* Python dicts are insertion-ordered association lists with unique keys:
  lookup is `alookup`, assignment (overwrite in place or append) is `aset`,
  `del` is `adel`.
* The mutable `parent` back-reference cannot live inside a purely functional
  tree; it is represented positionally: `set` always creates a sub-node with
  `parent = self` and `_key =` the segment under which it is stored, so a
  node's parent chain is exactly the list of `key_` fields along its access
  path from the root.  The `key` property is embedded as `keyOf` on that
  chain.  Leaf values are opaque (their own `parent` slot is not modelled).
* Fallible operations (`delete_key`) return the mutated node together with a
  success flag, because the source mutates in place before it can fail, and
  those mutations survive the exception.
-/

/-- Python strings, modelled as lists of characters. -/
abbrev Str : Type := List Char

/-- A dot-separated composite key, pre-parsed into the view that
`key.partition(".")` produces at each recursion level of the source:
`Key.cons s r` has head segment `s` and non-empty remainder `r`;
`Key.last s` has an empty remainder (no further dot). -/
inductive Key : Type where
  | last (seg : Str) : Key
  | cons (seg : Str) (rest : Key) : Key
deriving DecidableEq

/-- The Python string this key denotes: segments joined by dots. -/
def Key.toStr : Key → Str
  | .last s => s
  | .cons s rest => s ++ '.' :: rest.toStr

/-- A well-formed composite key in the spec's sense: one or more non-empty
segments, none containing the separator. -/
def Key.wf : Key → Bool
  | .last s => decide (s ≠ [] ∧ '.' ∉ s)
  | .cons s rest => decide (s ≠ [] ∧ '.' ∉ s) && rest.wf

/-- `k1.ancestorOf k2` holds when `k2` equals `k1` or extends it at a segment
boundary (segmentwise: the segment list of `k1` is an initial run of the
segment list of `k2`). -/
def Key.ancestorOf : Key → Key → Bool
  | .last s1, .last s2 => decide (s1 = s2)
  | .last s1, .cons s2 _ => decide (s1 = s2)
  | .cons _ _, .last _ => false
  | .cons s1 r1, .cons s2 r2 => decide (s1 = s2) && r1.ancestorOf r2

/-- Embeds Python's `key.partition(".")`, keeping the parts the source uses:
the text before the first dot and the text after it (empty when there is no
dot, matching the truthiness test `if node_key:`). -/
def partitionDot : Str → Str × Str
  | [] => ([], [])
  | c :: cs =>
      if c = '.' then ([], cs)
      else ((partitionDot cs).1.cons c, (partitionDot cs).2)

/-- Lookup in a Python dict modelled as an association list. -/
def alookup {α : Type} : List (Str × α) → Str → Option α
  | [], _ => none
  | kv :: rest, key => if kv.1 = key then some kv.2 else alookup rest key

/-- Python dict assignment `d[key] = v`: overwrite in place if the key is
present (keeping its position), otherwise append. -/
def aset {α : Type} : List (Str × α) → Str → α → List (Str × α)
  | [], key, v => [(key, v)]
  | kv :: rest, key, v =>
      if kv.1 = key then (kv.1, v) :: rest else kv :: aset rest key v

/-- Python dict deletion `del d[key]` (the caller checks presence first). -/
def adel {α : Type} : List (Str × α) → Str → List (Str × α)
  | [], _ => []
  | kv :: rest, key => if kv.1 = key then rest else kv :: adel rest key

/-- The `NestedDict` node: `key_` embeds the `_key` attribute (the segment
under which the parent stores this node, `none` for a root), `children` the
dict contents inherited from `dict` (each slot a branch node `Sum.inl` or a
leaf value `Sum.inr`), and `chainmap` the `__chainmap__` flat index from
relative key strings to leaf values. -/
inductive NestedDict (T : Type) : Type where
  | mk (key_ : Option Str) (children : List (Str × (NestedDict T ⊕ T)))
      (chainmap : List (Str × T)) : NestedDict T

/-- The `_key` attribute. -/
def NestedDict.key_ {T : Type} : NestedDict T → Option Str
  | .mk k _ _ => k

/-- The dict contents of the node. -/
def NestedDict.children {T : Type} : NestedDict T → List (Str × (NestedDict T ⊕ T))
  | .mk _ c _ => c

/-- The `__chainmap__` flat index of the node. -/
def NestedDict.chainmap {T : Type} : NestedDict T → List (Str × T)
  | .mk _ _ m => m

/-- A fresh root: `NestedDict()` has no parent, no `_key`, empty dict
contents and an empty flat index. -/
def rootNode (T : Type) : NestedDict T := NestedDict.mk none [] []

/-- Embeds `NestedDict.set` of `nested_dict.py`: records the full remaining
key in the flat index, then either recurses into the child branch at the head
segment (creating a fresh branch with `parent = self`, `key = head` when that
slot is absent or holds a leaf) or stores the leaf in place.  `self.get(head)`
on the single head segment is exactly a dict lookup. -/
def NestedDict.set {T : Type} : NestedDict T → Key → T → NestedDict T
  | n, .last s, v =>
      NestedDict.mk n.key_ (aset n.children s (Sum.inr v))
        (aset n.chainmap (Key.last s).toStr v)
  | n, .cons s rest, v =>
      NestedDict.mk n.key_
        (aset n.children s (Sum.inl
          ((match alookup n.children s with
            | some (Sum.inl b) => b
            | _ => NestedDict.mk (some s) [] []).set rest v)))
        (aset n.chainmap (Key.cons s rest).toStr v)

/-- Embeds `NestedDict.get` of `nested_dict.py`.  The default is any value a
`get` call can produce (`none` embeds Python's `None`); note that the source
tests `isinstance(branch, NestedDict)` on the result of
`dict.get(head, default)`, so a default that is itself a branch node is
traversed like a found child. -/
def NestedDict.get {T : Type} : NestedDict T → Key → Option (NestedDict T ⊕ T) →
    Option (NestedDict T ⊕ T)
  | n, .last s, d =>
      match alookup n.children s with
      | some c => some c
      | none => d
  | n, .cons s rest, d =>
      match (match alookup n.children s with
             | some c => some c
             | none => d) with
      | some (Sum.inl b) => b.get rest d
      | _ => d

/-- Embeds `NestedDict.__contains__` of `nested_dict.py` (the tree-walking
variant): the head segment must be a dict member; with no remainder that
already counts as containment, otherwise recursion continues only through a
branch node. -/
def NestedDict.contains {T : Type} : NestedDict T → Key → Bool
  | n, .last s => (alookup n.children s).isSome
  | n, .cons s rest =>
      match alookup n.children s with
      | none => false
      | some (Sum.inl b) => b.contains rest
      | some (Sum.inr _) => false

/-- Embeds `NestedDict.__contains__` of `tests/nested_dict/test_nested_dict.py`
(the flat-index variant): membership of the full key string in `__chainmap__`. -/
def NestedDict.contains_chainmap {T : Type} (n : NestedDict T) (k : Key) : Bool :=
  (alookup n.chainmap k.toStr).isSome

/-- Embeds `NestedDict.get_leaf`: a direct flat-index lookup on the full key
string; the source raises `KeyError` when the key is absent, embedded as
`none`. -/
def NestedDict.get_leaf {T : Type} (n : NestedDict T) (key : Str) : Option T :=
  alookup n.chainmap key

/-- Embeds `NestedDict.delete_key`: first drop from the flat index every entry
whose key string starts with the full key (a raw textual test,
`k.startswith(key)`), then walk the tree.  Returns the mutated node and a
success flag: the source raises (`KeyError` on a missing head segment,
`AttributeError` on recursing into a leaf) only after the flat-index cleanup
has mutated the node in place, so the cleanup survives a failure. -/
def NestedDict.delete_key {T : Type} : NestedDict T → Key → NestedDict T × Bool
  | n, k =>
      let cm := n.chainmap.filter (fun kv => !(List.isPrefixOf k.toStr kv.1))
      match k with
      | .last s =>
          match alookup n.children s with
          | none => (NestedDict.mk n.key_ n.children cm, false)
          | some _ => (NestedDict.mk n.key_ (adel n.children s) cm, true)
      | .cons s rest =>
          match alookup n.children s with
          | none => (NestedDict.mk n.key_ n.children cm, false)
          | some (Sum.inr _) => (NestedDict.mk n.key_ n.children cm, false)
          | some (Sum.inl b) =>
              let r := b.delete_key rest
              (NestedDict.mk n.key_ (aset n.children s (Sum.inl r.1)) cm, r.2)

/-- Embeds `NestedDict.clear`: empties both the flat index and the dict
contents of this node, keeping `parent` and `_key`. -/
def NestedDict.clear {T : Type} (n : NestedDict T) : NestedDict T :=
  NestedDict.mk n.key_ [] []

/-- Embeds the `NestedDict.key` property as a function of the node's chain of
`_key` attributes, listed from the node itself up to the root (whose `_key`
is `none`): `if parent and parent.key` guards the dot-join, else the result
is `self._key or ""`.  On every node reachable by `set` a non-root `_key` is
an actual string, so `Option.getD` coincides with the source. -/
def keyOf : List (Option Str) → Str
  | [] => []
  | k :: rest =>
      if rest ≠ [] ∧ keyOf rest ≠ [] then keyOf rest ++ '.' :: k.getD []
      else k.getD []

/-- The `_key` attribute of a branch node returned by `get`, when the result
is a branch node. -/
def branchKeySeg {T : Type} : Option (NestedDict T ⊕ T) → Option (Option Str)
  | some (Sum.inl b) => some b.key_
  | _ => none

/-- Modelled from the spec: resolution of a key fails when a segment is
absent at some step, or an intermediate segment resolves to a leaf while more
segments remain (the `get` contract's failure condition, stated independently
of `get`). -/
def NestedDict.resFails {T : Type} : NestedDict T → Key → Bool
  | n, .last s => (alookup n.children s).isNone
  | n, .cons s rest =>
      match alookup n.children s with
      | none => true
      | some (Sum.inr _) => true
      | some (Sum.inl b) => b.resFails rest

/-- The head segment is absent from `children` at some recursion level of a
`delete_key` walk (the condition under which the source raises `KeyError`). -/
def NestedDict.headAbsent {T : Type} : NestedDict T → Key → Bool
  | n, .last s => (alookup n.children s).isNone
  | n, .cons s rest =>
      match alookup n.children s with
      | none => true
      | some (Sum.inr _) => false
      | some (Sum.inl b) => b.headAbsent rest

/-- The node indexes the leaf `v` under key `k` along the whole path: every
node on `k`'s path maps the corresponding relative suffix string to `v` in
its flat index, and the path itself consists of branch nodes. -/
def NestedDict.indexedAlong {T : Type} : NestedDict T → Key → T → Prop
  | n, .last s, v => alookup n.chainmap (Key.last s).toStr = some v
  | n, .cons s rest, v =>
      alookup n.chainmap (Key.cons s rest).toStr = some v ∧
      ∃ b : NestedDict T, alookup n.children s = some (Sum.inl b) ∧
        b.indexedAlong rest v

/-! Concrete scenario trees used by the claims. -/

/-- The key `"a.b.c"`. -/
def kABC : Key := Key.cons ['a'] (Key.cons ['b'] (Key.last ['c']))

/-- The key `"a.b.d"`. -/
def kABD : Key := Key.cons ['a'] (Key.cons ['b'] (Key.last ['d']))

/-- The key `"a.b"`. -/
def kAB : Key := Key.cons ['a'] (Key.last ['b'])

/-- The tree obtained by `set("a.b.c", 99)` on an empty root. -/
def treeABC : NestedDict Nat := (rootNode Nat).set kABC 99

/-- The tree obtained by `set("a.b.c", 1)` then `set("a.b.d", 2)` on an empty
root. -/
def treeCD : NestedDict Nat := ((rootNode Nat).set kABC 1).set kABD 2

/-- The tree obtained by `set("ab", 1)` then `set("a", 2)` on an empty root. -/
def treePB : NestedDict Nat :=
  ((rootNode Nat).set (Key.last ['a', 'b']) 1).set (Key.last ['a']) 2

/-- The tree obtained by `set("ab", 7)` then `set("a", 8)` on an empty root. -/
def treePB2 : NestedDict Nat :=
  ((rootNode Nat).set (Key.last ['a', 'b']) 7).set (Key.last ['a']) 8

/-- The tree obtained by `set("a", 1)` then `set("a.b", 2)` on an empty root:
the leaf at `"a"` is overwritten by a branch. -/
def treeOverwrite : NestedDict Nat :=
  ((rootNode Nat).set (Key.last ['a']) 1).set (Key.cons ['a'] (Key.last ['b'])) 2

/-- A branch node used as a `get` default: it holds a leaf `7` under `"b"`. -/
def defaultNode : NestedDict Nat := NestedDict.mk none [(['b'], Sum.inr 7)] []

/-! Basic lemmas about the association-list dict operations. -/

@[simp] theorem NestedDict.key_mk {T : Type} (k : Option Str)
    (c : List (Str × (NestedDict T ⊕ T))) (m : List (Str × T)) :
    (NestedDict.mk k c m).key_ = k := rfl

@[simp] theorem NestedDict.children_mk {T : Type} (k : Option Str)
    (c : List (Str × (NestedDict T ⊕ T))) (m : List (Str × T)) :
    (NestedDict.mk k c m).children = c := rfl

@[simp] theorem NestedDict.chainmap_mk {T : Type} (k : Option Str)
    (c : List (Str × (NestedDict T ⊕ T))) (m : List (Str × T)) :
    (NestedDict.mk k c m).chainmap = m := rfl

@[simp] theorem alookup_aset_self {α : Type} (l : List (Str × α)) (k : Str) (v : α) :
    alookup (aset l k v) k = some v := by
  induction l with
  | nil => simp [aset, alookup]
  | cons kv rest ih =>
      by_cases h : kv.1 = k
      · simp [aset, alookup, h]
      · simp [aset, alookup, h, ih]

theorem alookup_aset_ne {α : Type} (l : List (Str × α)) {k k' : Str} (v : α)
    (h : k' ≠ k) : alookup (aset l k v) k' = alookup l k' := by
  induction l with
  | nil => simp [aset, alookup, Ne.symm h]
  | cons kv rest ih =>
      by_cases hh : kv.1 = k
      · simp [aset, alookup, hh, Ne.symm h]
      · simp [aset, alookup, hh, ih]

/-! Lemmas about key strings and the partition view. -/

theorem Key.toStr_ne_nil {k : Key} (h : k.wf = true) : k.toStr ≠ [] := by
  cases k with
  | last s =>
      simp [Key.wf] at h
      simpa [Key.toStr] using h.1
  | cons s rest => simp [Key.toStr]

theorem dot_mem_toStr_cons (s : Str) (r : Key) : '.' ∈ (Key.cons s r).toStr := by
  simp [Key.toStr]

theorem ne_of_dot {a b : Str} (ha : '.' ∈ a) (hb : '.' ∉ b) : a ≠ b :=
  fun h => hb (h ▸ ha)

theorem append_dot_inj : ∀ (s1 : Str) {s2 t1 t2 : Str}, '.' ∉ s1 → '.' ∉ s2 →
    s1 ++ '.' :: t1 = s2 ++ '.' :: t2 → s1 = s2 ∧ t1 = t2
  | [], s2, t1, t2, _, h2, h => by
      cases s2 with
      | nil =>
          simp only [List.nil_append, List.cons.injEq] at h
          exact ⟨rfl, h.2⟩
      | cons c cs =>
          simp only [List.nil_append, List.cons_append, List.cons.injEq] at h
          exact absurd (by rw [← h.1]; exact List.mem_cons_self _ _) h2
  | c :: cs, s2, t1, t2, h1, h2, h => by
      cases s2 with
      | nil =>
          simp only [List.nil_append, List.cons_append, List.cons.injEq] at h
          exact absurd (by rw [h.1]; exact List.mem_cons_self _ _) h1
      | cons c2 cs2 =>
          simp only [List.cons_append, List.cons.injEq] at h
          have h1' : '.' ∉ cs := fun hm => h1 (List.mem_cons_of_mem _ hm)
          have h2' : '.' ∉ cs2 := fun hm => h2 (List.mem_cons_of_mem _ hm)
          obtain ⟨hs, ht⟩ := append_dot_inj cs h1' h2' h.2
          exact ⟨by rw [h.1, hs], ht⟩

theorem Key.toStr_inj : ∀ {k1 k2 : Key}, k1.wf = true → k2.wf = true →
    k1.toStr = k2.toStr → k1 = k2
  | .last s1, .last s2, _, _, h => by
      simp only [Key.toStr] at h
      rw [h]
  | .last s1, .cons s2 r2, h1, _, h => by
      simp [Key.wf] at h1
      simp only [Key.toStr] at h
      exact absurd (by rw [h]; exact dot_mem_toStr_cons s2 r2) h1.2
  | .cons s1 r1, .last s2, _, h2, h => by
      simp [Key.wf] at h2
      simp only [Key.toStr] at h
      exact absurd (by rw [← h]; exact dot_mem_toStr_cons s1 r1) h2.2
  | .cons s1 r1, .cons s2 r2, h1, h2, h => by
      simp only [Key.wf, Bool.and_eq_true, decide_eq_true_eq] at h1 h2
      simp only [Key.toStr] at h
      obtain ⟨hs, ht⟩ := append_dot_inj s1 h1.1.2 h2.1.2 h
      rw [hs, Key.toStr_inj h1.2 h2.2 ht]

theorem Key.ancestorOf_self : ∀ k : Key, k.ancestorOf k = true
  | .last s => by simp [Key.ancestorOf]
  | .cons s r => by simp [Key.ancestorOf, Key.ancestorOf_self r]

theorem partitionDot_no_dot : ∀ {s : Str}, '.' ∉ s → partitionDot s = (s, []) := by
  intro s
  induction s with
  | nil => intro _; rfl
  | cons c cs ih =>
      intro h
      have hc : ¬(c = '.') := fun hh => h (by rw [hh]; exact List.mem_cons_self _ _)
      simp [partitionDot, hc, ih (fun hm => h (List.mem_cons_of_mem _ hm))]

theorem partitionDot_append : ∀ {s : Str} (t : Str), '.' ∉ s →
    partitionDot (s ++ '.' :: t) = (s, t) := by
  intro s
  induction s with
  | nil => intro t _; simp [partitionDot]
  | cons c cs ih =>
      intro t h
      have hc : ¬(c = '.') := fun hh => h (by rw [hh]; exact List.mem_cons_self _ _)
      simp [partitionDot, hc, ih t (fun hm => h (List.mem_cons_of_mem _ hm))]

/-- On well-formed composite keys the pre-parsed `Key` view agrees with the
source's `key.partition(".")` at the topmost recursion level: the part before
the first dot is the head segment, the part after it is the string of the
remaining key (empty exactly for a final segment).  Together with
`Key.toStr_ne_nil` (a remainder is never falsy) this justifies driving the
embedded operations by the `Key` structure. -/
theorem partitionDot_toStr : ∀ {k : Key}, k.wf = true →
    partitionDot k.toStr =
      (match k with
       | .last s => (s, ([] : Str))
       | .cons s r => (s, r.toStr)) := by
  intro k hk
  cases k with
  | last s =>
      simp [Key.wf] at hk
      simpa [Key.toStr] using partitionDot_no_dot hk.2
  | cons s r =>
      simp [Key.wf, Bool.and_eq_true, decide_eq_true_eq] at hk
      simpa [Key.toStr] using partitionDot_append r.toStr hk.1.2

/-! Lemmas about the embedded operations. -/

/-- The head segment of a composite key. -/
def Key.head : Key → Str
  | .last s => s
  | .cons s _ => s

theorem get_last_eq {T : Type} {m : NestedDict T} {s : Str} {v : T}
    (h : m.get (Key.last s) none = some (Sum.inr v)) :
    alookup m.children s = some (Sum.inr v) := by
  cases hc : alookup m.children s with
  | none => simp [NestedDict.get, hc] at h
  | some c =>
      simp [NestedDict.get, hc] at h
      rw [h]

theorem get_cons_parts {T : Type} {m : NestedDict T} {s : Str} {r : Key} {v : T}
    (h : m.get (Key.cons s r) none = some (Sum.inr v)) :
    ∃ b : NestedDict T, alookup m.children s = some (Sum.inl b) ∧
      b.get r none = some (Sum.inr v) := by
  cases hc : alookup m.children s with
  | none => simp [NestedDict.get, hc] at h
  | some c =>
      cases c with
      | inl b => exact ⟨b, rfl, by simpa [NestedDict.get, hc] using h⟩
      | inr t => simp [NestedDict.get, hc] at h

theorem set_chainmap_eq {T : Type} (n : NestedDict T) (k : Key) (v : T) :
    (n.set k v).chainmap = aset n.chainmap k.toStr v := by
  cases k <;> simp [NestedDict.set]

theorem set_get_self {T : Type} : ∀ (k : Key) (n : NestedDict T) (v : T),
    (n.set k v).get k none = some (Sum.inr v)
  | .last s, n, v => by
      simp [NestedDict.set, NestedDict.get, alookup_aset_self]
  | .cons s rest, n, v => by
      simp only [NestedDict.set, NestedDict.get, NestedDict.children_mk,
        alookup_aset_self]
      exact set_get_self rest _ v

theorem set_indexedAlong_self {T : Type} : ∀ (k : Key) (n : NestedDict T) (v : T),
    (n.set k v).indexedAlong k v
  | .last s, n, v => by
      simp only [NestedDict.set, NestedDict.indexedAlong, NestedDict.chainmap_mk,
        alookup_aset_self]
  | .cons s rest, n, v => by
      refine ⟨?_, ⟨(match alookup n.children s with
          | some (Sum.inl b) => b
          | _ => NestedDict.mk (some s) [] []).set rest v, ?_,
            set_indexedAlong_self rest _ v⟩⟩
      · simp only [NestedDict.set, NestedDict.chainmap_mk, alookup_aset_self]
      · simp only [NestedDict.set, NestedDict.children_mk, alookup_aset_self]

theorem set_contains_self {T : Type} : ∀ (k : Key) (n : NestedDict T) (v : T),
    (n.set k v).contains k = true
  | .last s, n, v => by
      simp [NestedDict.set, NestedDict.contains, alookup_aset_self]
  | .cons s rest, n, v => by
      simp only [NestedDict.set, NestedDict.contains, NestedDict.children_mk,
        alookup_aset_self]
      exact set_contains_self rest _ v

theorem get_default_aux {T : Type} : ∀ (k : Key) (n : NestedDict T)
    (d : Option (NestedDict T ⊕ T)), (∀ b : NestedDict T, d ≠ some (Sum.inl b)) →
    n.resFails k = true → n.get k d = d
  | .last s, n, d, _, h => by
      simp only [NestedDict.resFails, Option.isNone_iff_eq_none] at h
      simp [NestedDict.get, h]
  | .cons s rest, n, d, hd, h => by
      cases hc : alookup n.children s with
      | none =>
          cases d with
          | none => simp [NestedDict.get, hc]
          | some c =>
              cases c with
              | inl b => exact absurd rfl (hd b)
              | inr t => simp [NestedDict.get, hc]
      | some c =>
          cases c with
          | inl b =>
              have h' : b.resFails rest = true := by
                simpa [NestedDict.resFails, hc] using h
              simp only [NestedDict.get, hc]
              exact get_default_aux rest b d hd h'
          | inr t => simp [NestedDict.get, hc]

theorem delete_chainmap_filtered {T : Type} (n : NestedDict T) (k : Key) :
    (n.delete_key k).1.chainmap =
      n.chainmap.filter (fun kv => !(List.isPrefixOf k.toStr kv.1)) := by
  cases k with
  | last s => cases hc : alookup n.children s <;> simp [NestedDict.delete_key, hc]
  | cons s rest =>
      cases hc : alookup n.children s with
      | none => simp [NestedDict.delete_key, hc]
      | some c => cases c <;> simp [NestedDict.delete_key, hc]

theorem delete_fails_of_headAbsent {T : Type} : ∀ (k : Key) (n : NestedDict T),
    n.headAbsent k = true → (n.delete_key k).2 = false
  | .last s, n, h => by
      simp only [NestedDict.headAbsent, Option.isNone_iff_eq_none] at h
      simp [NestedDict.delete_key, h]
  | .cons s rest, n, h => by
      cases hc : alookup n.children s with
      | none => simp [NestedDict.delete_key, hc]
      | some c =>
          cases c with
          | inl b =>
              have h' : b.headAbsent rest = true := by
                simpa [NestedDict.headAbsent, hc] using h
              simp only [NestedDict.delete_key, hc]
              exact delete_fails_of_headAbsent rest b h'
          | inr t => simp [NestedDict.headAbsent, hc] at h

/-- A `set` whose head segment differs from the head of `k1` and whose full
key string differs from `k1.toStr` leaves `k1`'s tree binding and flat-index
entries untouched (the subtree below the head is not even visited). -/
theorem frame_untouched {T : Type} (k1 : Key) (m : NestedDict T) (v1 : T)
    (s2 t2 : Str) (C : NestedDict T ⊕ T) (v2 : T)
    (hh : k1.head ≠ s2) (ht : k1.toStr ≠ t2)
    (hget : m.get k1 none = some (Sum.inr v1)) (hidx : m.indexedAlong k1 v1) :
    (NestedDict.mk m.key_ (aset m.children s2 C) (aset m.chainmap t2 v2)).get k1 none
        = some (Sum.inr v1) ∧
    (NestedDict.mk m.key_ (aset m.children s2 C) (aset m.chainmap t2 v2)).indexedAlong
        k1 v1 := by
  cases k1 with
  | last s1 =>
      have hh' : s1 ≠ s2 := hh
      have hl := get_last_eq hget
      have hcm : alookup m.chainmap (Key.last s1).toStr = some v1 := hidx
      constructor
      · simp [NestedDict.get, alookup_aset_ne m.children C hh', hl]
      · show alookup (aset m.chainmap t2 v2) (Key.last s1).toStr = some v1
        rw [alookup_aset_ne m.chainmap v2 ht]
        exact hcm
  | cons s1 r1 =>
      have hh' : s1 ≠ s2 := hh
      obtain ⟨hcm, b, hb, hbi⟩ := hidx
      obtain ⟨b', hb', hbg⟩ := get_cons_parts hget
      rw [hb] at hb'
      have hbb : b' = b := (Sum.inl.inj (Option.some.inj hb')).symm
      rw [hbb] at hbg
      constructor
      · simp only [NestedDict.get, NestedDict.children_mk,
          alookup_aset_ne m.children C hh', hb]
        exact hbg
      · refine ⟨?_, ⟨b, by simp [alookup_aset_ne m.children C hh', hb], hbi⟩⟩
        show alookup (aset m.chainmap t2 v2) (Key.cons s1 r1).toStr = some v1
        rw [alookup_aset_ne m.chainmap v2 ht]
        exact hcm

/-- Core frame property: a `set` under a key `k2` that is segmentwise
unrelated to `k1` (neither is an ancestor of the other) preserves both the
tree binding of `k1` and its flat-index entries along the path. -/
theorem frame_aux {T : Type} : ∀ (k2 k1 : Key) (m : NestedDict T) (v1 v2 : T),
    k1.wf = true → k2.wf = true → Key.ancestorOf k1 k2 = false →
    Key.ancestorOf k2 k1 = false → m.get k1 none = some (Sum.inr v1) →
    m.indexedAlong k1 v1 →
    (m.set k2 v2).get k1 none = some (Sum.inr v1) ∧
      (m.set k2 v2).indexedAlong k1 v1
  | .last s2, k1, m, v1, v2, h1, h2, h12, h21, hget, hidx => by
      have hne : k1.head ≠ s2 ∧ k1.toStr ≠ (Key.last s2).toStr := by
        cases k1 with
        | last s1 =>
            have hs : s1 ≠ s2 := by
              simpa [Key.ancestorOf, decide_eq_false_iff_not] using h12
            exact ⟨hs, hs⟩
        | cons s1 r1 =>
            have hs : s2 ≠ s1 := by
              simpa [Key.ancestorOf, decide_eq_false_iff_not] using h21
            have h2' : '.' ∉ s2 := by
              simp only [Key.wf, decide_eq_true_eq] at h2
              exact h2.2
            exact ⟨fun hx => hs hx.symm,
              ne_of_dot (dot_mem_toStr_cons s1 r1) h2'⟩
      have := frame_untouched k1 m v1 s2 (Key.last s2).toStr (Sum.inr v2) v2
        hne.1 hne.2 hget hidx
      simpa [NestedDict.set] using this
  | .cons s2 r2, k1, m, v1, v2, h1, h2, h12, h21, hget, hidx => by
      have h2w : ('.' ∉ s2) ∧ r2.wf = true := by
        simp only [Key.wf, Bool.and_eq_true, decide_eq_true_eq] at h2
        exact ⟨h2.1.2, h2.2⟩
      cases k1 with
      | last s1 =>
          have hs : s1 ≠ s2 := by
            simpa [Key.ancestorOf, decide_eq_false_iff_not] using h12
          have h1' : '.' ∉ s1 := by
            simp only [Key.wf, decide_eq_true_eq] at h1
            exact h1.2
          have hts : (Key.last s1).toStr ≠ (Key.cons s2 r2).toStr := by
            intro hx
            apply h1'
            have hx' : s1 = (Key.cons s2 r2).toStr := hx
            rw [hx']
            exact dot_mem_toStr_cons s2 r2
          have := frame_untouched (Key.last s1) m v1 s2 (Key.cons s2 r2).toStr
            (Sum.inl ((match alookup m.children s2 with
              | some (Sum.inl b) => b
              | _ => NestedDict.mk (some s2) [] []).set r2 v2)) v2 hs hts hget hidx
          simpa [NestedDict.set] using this
      | cons s1 r1 =>
          have h1w : ('.' ∉ s1) ∧ r1.wf = true := by
            simp only [Key.wf, Bool.and_eq_true, decide_eq_true_eq] at h1
            exact ⟨h1.1.2, h1.2⟩
          by_cases hs : s1 = s2
          · subst hs
            obtain ⟨hcm, b, hb, hbi⟩ := hidx
            obtain ⟨b', hb', hbg⟩ := get_cons_parts hget
            rw [hb] at hb'
            have hbb : b' = b := (Sum.inl.inj (Option.some.inj hb')).symm
            rw [hbb] at hbg
            have h12' : r1.ancestorOf r2 = false := by
              simpa [Key.ancestorOf] using h12
            have h21' : r2.ancestorOf r1 = false := by
              simpa [Key.ancestorOf] using h21
            obtain ⟨ihg, ihi⟩ := frame_aux r2 r1 b v1 v2 h1w.2 h2w.2 h12' h21'
              hbg hbi
            have hk : (Key.cons s1 r1).toStr ≠ (Key.cons s1 r2).toStr := by
              intro hx
              have hx' : s1 ++ '.' :: r1.toStr = s1 ++ '.' :: r2.toStr := hx
              have hr : r1 = r2 := Key.toStr_inj h1w.2 h2w.2
                ((append_dot_inj s1 h1w.1 h1w.1 hx').2)
              rw [hr, Key.ancestorOf_self r2] at h12'
              exact Bool.noConfusion h12'
            constructor
            · simp only [NestedDict.set, NestedDict.get, NestedDict.children_mk,
                alookup_aset_self, hb]
              exact ihg
            · refine ⟨?_, ⟨b.set r2 v2,
                by simp [NestedDict.set, alookup_aset_self, hb], ihi⟩⟩
              show alookup (aset m.chainmap (Key.cons s1 r2).toStr v2)
                  (Key.cons s1 r1).toStr = some v1
              rw [alookup_aset_ne m.chainmap v2 hk]
              exact hcm
          · have hts : (Key.cons s1 r1).toStr ≠ (Key.cons s2 r2).toStr := by
              intro hx
              have hx' : s1 ++ '.' :: r1.toStr = s2 ++ '.' :: r2.toStr := hx
              exact hs (append_dot_inj s1 h1w.1 h2w.1 hx').1
            have := frame_untouched (Key.cons s1 r1) m v1 s2
              (Key.cons s2 r2).toStr
              (Sum.inl ((match alookup m.children s2 with
                | some (Sum.inl b) => b
                | _ => NestedDict.mk (some s2) [] []).set r2 v2)) v2 hs hts
              hget hidx
            simpa [NestedDict.set] using this

/-! Claim theorems. -/

/-- C1: the claim states that `contains(k)` is true exactly when `k` is in the
node's flat index, so that after `set("a.b.c", 99)` on an empty root,
`contains("a")` and `contains("a.b")` are false.  The library's tree-walking
`__contains__` instead reports `True` for the branch keys `"a"` and `"a.b"`,
while its own flat index holds no entry for them, and the test file's
flat-index variant (matching the docstring and the expected outputs recorded
in the test file) reports `False`; the two variants agree on the leaf key
`"a.b.c"` and on the absent key `"a.b.c.d"`.  This exhibits the code bug at
the claim's own input. -/
theorem contains_tree_walk_reports_branch :
    treeABC.contains (Key.last ['a']) = true ∧
    treeABC.contains kAB = true ∧
    treeABC.contains kABC = true ∧
    treeABC.contains (Key.cons ['a'] (Key.cons ['b'] (Key.cons ['c']
      (Key.last ['d'])))) = false ∧
    treeABC.contains_chainmap (Key.last ['a']) = false ∧
    treeABC.contains_chainmap kAB = false ∧
    treeABC.contains_chainmap kABC = true ∧
    treeABC.contains_chainmap (Key.cons ['a'] (Key.cons ['b'] (Key.cons ['c']
      (Key.last ['d'])))) = false := by
  decide

/-- C2: the claim states that `delete_key("a")` after `set("ab", v1)` and
`set("a", v2)` must not remove the flat-index entry for `"ab"`.  The source's
cleanup uses the raw textual test `k.startswith(key)`, so it does remove it:
before the deletion the root's flat index maps `"ab"` to `1`, the deletion
succeeds, and afterwards the entry for `"ab"` is gone.  This exhibits the
code bug at the claim's own input. -/
theorem delete_key_raw_prefix_removes_ab :
    alookup treePB.chainmap ['a', 'b'] = some 1 ∧
    (treePB.delete_key (Key.last ['a'])).2 = true ∧
    alookup (treePB.delete_key (Key.last ['a'])).1.chainmap ['a', 'b'] = none := by
  decide

/-- C3 counterexample: after `set("a", 1)` then `set("a.b", 2)` on an empty
root, the root's flat index still maps `"a"` to the old leaf `1`, yet the
child slot at `"a"` (and the value `get("a")` resolves to) is now a branch
node, so the old leaf is no longer reachable via the tree under the key
`"a"` - a stale flat-index entry, contradicting the claim. -/
theorem set_leaves_stale_index_entry :
    alookup treeOverwrite.chainmap ['a'] = some 1 ∧
    (alookup treeOverwrite.children ['a']).map Sum.isLeft = some true ∧
    (treeOverwrite.get (Key.last ['a']) none).map Sum.isLeft = some true := by
  decide

/-- C3 amended: `set(k, v)` indexes `k` itself correctly at every node along
its path, and changes no flat-index entry other than the one for the exact
key written at each node; in particular it performs no cleanup, so
overwriting a leaf with a deeper path through it (or a branch with a leaf)
leaves the overwritten key's old flat-index entry in place, stale. -/
theorem set_indexes_exactly_its_key {T : Type} (n : NestedDict T) (k : Key)
    (v : T) :
    (n.set k v).indexedAlong k v ∧
    ∀ k' : Str, k' ≠ k.toStr →
      alookup (n.set k v).chainmap k' = alookup n.chainmap k' := by
  refine ⟨set_indexedAlong_self k n v, fun k' h => ?_⟩
  rw [set_chainmap_eq, alookup_aset_ne n.chainmap v h]

/-- Witness for the amended C3 theorem at a concrete input. -/
theorem set_indexes_exactly_its_key_witness :
    ((rootNode Nat).set (Key.last ['a']) 3).indexedAlong (Key.last ['a']) 3 ∧
    alookup ((rootNode Nat).set (Key.last ['a']) 3).chainmap ['b']
      = alookup (rootNode Nat).chainmap ['b'] :=
  ⟨(set_indexes_exactly_its_key (rootNode Nat) (Key.last ['a']) 3).1,
   (set_indexes_exactly_its_key (rootNode Nat) (Key.last ['a']) 3).2 ['b']
     (by decide)⟩

/-- C4: round-trip.  Immediately after `set(k, v)` on any node, `get(k)`
returns the leaf `v`, `get_leaf(k)` returns `v` from the flat index, and
`contains(k)` is true (this holds for every pre-parsed key, in particular for
every well-formed composite key). -/
theorem set_get_roundtrip {T : Type} (n : NestedDict T) (k : Key) (v : T) :
    (n.set k v).get k none = some (Sum.inr v) ∧
    (n.set k v).get_leaf k.toStr = some v ∧
    (n.set k v).contains k = true :=
  ⟨set_get_self k n v,
   by show alookup (n.set k v).chainmap k.toStr = some v
      rw [set_chainmap_eq]
      exact alookup_aset_self n.chainmap k.toStr v,
   set_contains_self k n v⟩

/-- C5: the claim states index completeness is preserved by every operation.
After `set("ab", 7)`, `set("a", 8)` and then `delete_key("a")`, the leaf `7`
is still reachable from the root via the path `"ab"` (the tree kept its child
slot), yet the root's flat index no longer holds an entry for `"ab"` - the
raw-textual cleanup of `delete_key` removed it - so completeness is violated.
This exhibits the code bug at a concrete input. -/
theorem delete_key_breaks_index_completeness :
    alookup (treePB2.delete_key (Key.last ['a'])).1.children ['a', 'b']
      = some (Sum.inr 7) ∧
    alookup (treePB2.delete_key (Key.last ['a'])).1.chainmap ['a', 'b'] = none :=
  ⟨rfl, by decide⟩

/-- C6: whenever the head segment is absent from `children` at some recursion
level, `delete_key` fails, and the flat-index cleanup at the entry node has
nevertheless already happened and is not rolled back: the resulting node's
flat index is the old one with every raw-textually covered entry removed. -/
theorem delete_key_fails_eager_cleanup {T : Type} (n : NestedDict T) (k : Key)
    (h : n.headAbsent k = true) :
    (n.delete_key k).2 = false ∧
    (n.delete_key k).1.chainmap =
      n.chainmap.filter (fun kv => !(List.isPrefixOf k.toStr kv.1)) :=
  ⟨delete_fails_of_headAbsent k n h, delete_chainmap_filtered n k⟩

/-- Witness for C6 at a concrete input: after `set("ab", 5)`, the key `"a"`
is absent from the children, `delete_key("a")` fails, and the flat index has
nonetheless lost its (raw-textually covered) entry for `"ab"`. -/
theorem delete_key_fails_eager_cleanup_witness :
    ((rootNode Nat).set (Key.last ['a', 'b']) 5).headAbsent (Key.last ['a'])
      = true ∧
    (((rootNode Nat).set (Key.last ['a', 'b']) 5).delete_key
      (Key.last ['a'])).2 = false ∧
    (((rootNode Nat).set (Key.last ['a', 'b']) 5).delete_key
      (Key.last ['a'])).1.chainmap = [] :=
  ⟨by decide,
   (delete_key_fails_eager_cleanup ((rootNode Nat).set (Key.last ['a', 'b']) 5)
     (Key.last ['a']) (by decide)).1,
   by decide⟩

/-- C7 counterexample: the claim quantifies over every default `D`, but a
default that is itself a branch node refutes it: on an empty root, resolution
of `"a.b"` fails at the absent segment `"a"`, yet `get("a.b", D)` with the
branch-node default `D` traverses `D` and returns the leaf `7` stored inside
it, which is not `D`. -/
theorem get_branch_default_not_default :
    (rootNode Nat).resFails kAB = true ∧
    (rootNode Nat).get kAB (some (Sum.inl defaultNode)) = some (Sum.inr 7) ∧
    (some (Sum.inr 7) : Option (NestedDict Nat ⊕ Nat))
      ≠ some (Sum.inl defaultNode) :=
  ⟨rfl, rfl, by simp⟩

/-- C7 amended: for every hierarchy, key and default `D` that is not itself a
branch node (`None` or a leaf value), `get(k, D)` returns `D` whenever
resolution of `k` fails at any step - a segment is absent, or an intermediate
segment resolves to a leaf while more segments remain. -/
theorem get_returns_default_on_failure {T : Type} (n : NestedDict T) (k : Key)
    (d : Option (NestedDict T ⊕ T))
    (hd : ∀ b : NestedDict T, d ≠ some (Sum.inl b))
    (h : n.resFails k = true) : n.get k d = d :=
  get_default_aux k n d hd h

/-- Witness for the amended C7 theorem: `get("z", 5)` on an empty root
returns the default `5`. -/
theorem get_returns_default_on_failure_witness :
    (rootNode Nat).resFails (Key.last ['z']) = true ∧
    (rootNode Nat).get (Key.last ['z']) (some (Sum.inr 5)) = some (Sum.inr 5) :=
  ⟨by decide,
   get_returns_default_on_failure (rootNode Nat) (Key.last ['z'])
     (some (Sum.inr 5)) (by simp) (by decide)⟩

/-- C8: a root's absolute path is empty; a non-root node's absolute path is
its parent's absolute path joined with `.` and its own segment, except that
no leading dot appears when the parent's path is empty.  Concretely, after
`set("a.b.c", 99)` on an empty root, the root still has no `_key`, the branch
nodes addressable at `"a"` and `"a.b"` carry segments `"a"` and `"b"`, and
the `key` property computed over the chain of `_key` attributes of the node
at `"a.b"` (namely segment `"b"`, parent segment `"a"`, root) is `"a.b"`. -/
theorem key_path_identity :
    (∀ (s : Str) (rest : List (Option Str)), rest ≠ [] →
        keyOf (some s :: rest) =
          if keyOf rest = [] then s else keyOf rest ++ '.' :: s) ∧
    keyOf [none] = [] ∧
    treeABC.key_ = none ∧
    branchKeySeg (treeABC.get (Key.last ['a']) none) = some (some ['a']) ∧
    branchKeySeg (treeABC.get kAB none) = some (some ['b']) ∧
    keyOf [some ['b'], some ['a'], none] = ['a', '.', 'b'] := by
  refine ⟨?_, by decide, rfl, rfl, rfl, by decide⟩
  intro s rest hrest
  by_cases hpk : keyOf rest = []
  · simp [keyOf, hrest, hpk]
  · simp [keyOf, hrest, hpk]

/-- Witness for C8's quantified conjunct at a concrete chain. -/
theorem key_path_identity_witness :
    keyOf (some ['b'] :: [some ['a'], none]) =
      (if keyOf [some ['a'], none] = [] then ['b']
       else keyOf [some ['a'], none] ++ '.' :: ['b']) :=
  key_path_identity.1 ['b'] [some ['a'], none] (by decide)

/-- C9: after `set("a.b.c", 1)` and `set("a.b.d", 2)` on an empty root,
`delete_key("a.b")` succeeds, makes `contains("a.b.c")` and
`contains("a.b.d")` both false, removes both entries from the root's flat
index, and leaves the node at `"a"` with empty children and an empty flat
index (so both entries are gone from every ancestor). -/
theorem delete_key_covers_subtree :
    (treeCD.delete_key kAB).2 = true ∧
    (treeCD.delete_key kAB).1.contains kABC = false ∧
    (treeCD.delete_key kAB).1.contains kABD = false ∧
    alookup (treeCD.delete_key kAB).1.chainmap kABC.toStr = none ∧
    alookup (treeCD.delete_key kAB).1.chainmap kABD.toStr = none ∧
    (treeCD.delete_key kAB).1.get (Key.last ['a']) none =
      some (Sum.inl (NestedDict.mk (some ['a']) [] [])) :=
  ⟨by decide, by decide, by decide, by decide, by decide, rfl⟩

/-- C10: for well-formed composite keys `k1`, `k2` where neither equals nor
extends the other at a segment boundary, `set(k1, v1)` followed by
`set(k2, v2)` leaves `k1`'s binding intact: `get(k1)` still returns `v1`, and
every node on `k1`'s path still maps `k1`'s relative suffix to `v1` in its
flat index. -/
theorem set_preserves_unrelated_binding {T : Type} (n : NestedDict T)
    (k1 k2 : Key) (v1 v2 : T) (h1 : k1.wf = true) (h2 : k2.wf = true)
    (h12 : Key.ancestorOf k1 k2 = false) (h21 : Key.ancestorOf k2 k1 = false) :
    ((n.set k1 v1).set k2 v2).get k1 none = some (Sum.inr v1) ∧
      ((n.set k1 v1).set k2 v2).indexedAlong k1 v1 :=
  frame_aux k2 k1 (n.set k1 v1) v1 v2 h1 h2 h12 h21 (set_get_self k1 n v1)
    (set_indexedAlong_self k1 n v1)

/-- Witness for C10 at a concrete input. -/
theorem set_preserves_unrelated_binding_witness :
    (Key.last ['a']).wf = true ∧ (Key.last ['b']).wf = true ∧
    Key.ancestorOf (Key.last ['a']) (Key.last ['b']) = false ∧
    Key.ancestorOf (Key.last ['b']) (Key.last ['a']) = false ∧
    (((rootNode Nat).set (Key.last ['a']) 1).set (Key.last ['b']) 2).get
        (Key.last ['a']) none = some (Sum.inr 1) :=
  ⟨by decide, by decide, by decide, by decide,
   (set_preserves_unrelated_binding (rootNode Nat) (Key.last ['a'])
     (Key.last ['b']) 1 2 (by decide) (by decide) (by decide) (by decide)).1⟩
